import Mathlib

/-!
Verification development for the `doc_anonymizer` repository.

The Python sources are shallowly embedded:
* text is modelled as `List Char` (`Str`);
* Python `str.replace`, `x in s`, `str.split`, and the global regex
  substitution `re.sub` are modelled by executable scanning functions with
  the same left-to-right, non-overlapping semantics;
* floating point quantities (font sizes, widths, coordinates, fuzzy scores)
  are modelled as exact rationals;
* the two external services used by the code — the `rapidfuzz`
  partial-ratio scorer and the `reportlab` per-character font width
  table — are parameters of the embedded functions, exactly where the
  source calls out to them.
-/

/-- Text, modelled as a list of characters (Python `str`). -/
abbrev Str := List Char

/-! ## Python string primitives used by `anonymizer_core.py` -/

/-- Python `pat in s`: `pat` occurs as a (contiguous) substring of `s`.
The empty pattern occurs in every string, as in Python. -/
def containsSub (pat : Str) : Str → Bool
  | [] => pat.isEmpty
  | c :: rest => pat.isPrefixOf (c :: rest) || containsSub pat rest

/-- Left-to-right, non-overlapping replacement of the non-empty pattern
`o :: otl` by `new`, as performed by Python `str.replace`. -/
def replaceCore (o : Char) (otl new : Str) (t : Str) : Str :=
  match t with
  | [] => []
  | c :: rest =>
    if (o :: otl).isPrefixOf (c :: rest) then
      new ++ replaceCore o otl new (rest.drop otl.length)
    else
      c :: replaceCore o otl new rest
  termination_by t.length
  decreasing_by
  · simp; omega
  · simp

/-- Python `t.replace(pat, new)`: all non-overlapping occurrences of `pat`
in `t` are replaced by `new`, scanning left to right.  For the empty
pattern Python inserts `new` at every position. -/
def pyReplace (t pat new : Str) : Str :=
  match pat with
  | [] => new ++ t.foldr (fun c acc => c :: (new ++ acc)) []
  | o :: otl => replaceCore o otl new t

/-- Case-insensitive prefix test (both sides compared under `Char.toLower`),
modelling matching of an escaped literal pattern under `re.IGNORECASE`. -/
def ciIsPrefixOf : Str → Str → Bool
  | [], _ => true
  | _ :: _, [] => false
  | p :: ps, c :: cs => (p.toLower = c.toLower) && ciIsPrefixOf ps cs

/-- Left-to-right, non-overlapping case-insensitive replacement of the
non-empty literal pattern `o :: otl` by `new`. -/
def ciReplaceCore (o : Char) (otl new : Str) (t : Str) : Str :=
  match t with
  | [] => []
  | c :: rest =>
    if ciIsPrefixOf (o :: otl) (c :: rest) then
      new ++ ciReplaceCore o otl new (rest.drop otl.length)
    else
      c :: ciReplaceCore o otl new rest
  termination_by t.length
  decreasing_by
  · simp; omega
  · simp

/-- Python `re.sub(re.escape(pat), new, t, flags=re.IGNORECASE)`: replace
all case-insensitive occurrences of the literal `pat` in `t` by `new`. -/
def ciReplace (t pat new : Str) : Str :=
  match pat with
  | [] => new ++ t.foldr (fun c acc => c :: (new ++ acc)) []
  | o :: otl => ciReplaceCore o otl new t

/-! ## Data model of the rule set (`anonymizer_core.py`) -/

/-- One `knowledge_base.customers` entry.  `name` defaults to the empty
string and a missing `replacement` key is `none` (the code supplies the
default `"[CLIENTE]"`). -/
structure Customer where
  name : Str
  aliases : List Str
  replacement : Option Str

/-- One `regex_replacements` rule.  The compiled regular expression is
embedded by its matching semantics: `pattern s` is the length of the match
that the `re` engine produces at the start of the suffix `s`, or `none`
when no match starts there. -/
structure RegexRule where
  pattern : Str → Option Nat
  replacement_type : Option String
  replacement_value : Option Str

/-- The configuration consumed by `anonymize_text` (`load_rules` output):
customers of the knowledge base, the insertion-ordered exact map, and the
ordered regex rules. -/
structure RuleSet where
  customers : List Customer
  exact_replacements : List (Str × Str)
  regex_replacements : List RegexRule

/-! ## Knowledge-base customer pass (`anonymize_text`, stage 0) -/

/-- `customer.get("replacement", "[CLIENTE]")`. -/
def kb_replacement (c : Customer) : Str :=
  c.replacement.getD "[CLIENTE]".data

/-- `[customer.get("name", "")] + aliases`, keeping only non-empty
candidates (`[n for n in names if n]`). -/
def kb_candidates (c : Customer) : List Str :=
  (c.name :: c.aliases).filter (fun n => !n.isEmpty)

/-- Processing of one candidate: exact replacement when the candidate is a
substring of the current text (the fuzzy check is then skipped via
`continue`), otherwise a case-insensitive literal substitution when the
partial-ratio score against the full current text is at least 90.
`score` is the external `rapidfuzz` `fuzz.partial_ratio` scorer. -/
def kb_candidate_step (score : Str → Str → ℚ) (replacement : Str)
    (st : Str × List (Str × Str)) (cand : Str) : Str × List (Str × Str) :=
  if containsSub cand st.1 then
    (pyReplace st.1 cand replacement, st.2 ++ [(cand, replacement)])
  else if 90 ≤ score cand st.1 then
    (ciReplace st.1 cand replacement, st.2 ++ [(cand, replacement)])
  else st

/-- Processing of one customer entry: its candidates in list order. -/
def kb_customer_step (score : Str → Str → ℚ)
    (st : Str × List (Str × Str)) (c : Customer) : Str × List (Str × Str) :=
  (kb_candidates c).foldl (kb_candidate_step score (kb_replacement c)) st

/-- The whole knowledge-base pass: customers in list order, starting from
the input text and an empty log. -/
def kb_pass (score : Str → Str → ℚ) (customers : List Customer)
    (text : Str) : Str × List (Str × Str) :=
  customers.foldl (kb_customer_step score) (text, [])

/-! ## Exact map pass (`apply_exact_replacements`) -/

/-- One exact rule: if the key occurs in the current text, replace all of
its occurrences by the value and log the pair. -/
def exact_step (st : Str × List (Str × Str)) (p : Str × Str) :
    Str × List (Str × Str) :=
  if containsSub p.1 st.1 then
    (pyReplace st.1 p.1 p.2, st.2 ++ [(p.1, p.2)])
  else st

/-- `apply_exact_replacements`: the mapping entries in insertion order. -/
def apply_exact_replacements (text : Str) (mapping : List (Str × Str)) :
    Str × List (Str × Str) :=
  mapping.foldl exact_step (text, [])

/-! ## Regex pass (`apply_regex_replacements`) -/

/-- Global regex substitution, modelling `re.sub(pattern, repl, t)` with a
callback that records every matched substring: scan left to right, at each
position take the match the engine reports there (`matchAt`), replace it
by `repl`, and continue after it (after an empty match the current
character is emitted and scanning resumes on the next position, as in
Python 3.7+).  Returns the new text and the matches in scan order. -/
def reSubGo (matchAt : Str → Option Nat) (repl : Str) : Str → Str × List Str
  | [] =>
    match matchAt [] with
    | some _ => (repl, [[]])
    | none => ([], [])
  | c :: rest =>
    match matchAt (c :: rest) with
    | none =>
      let r := reSubGo matchAt repl rest
      (c :: r.1, r.2)
    | some 0 =>
      let r := reSubGo matchAt repl rest
      (repl ++ c :: r.1, [] :: r.2)
    | some (n + 1) =>
      let r := reSubGo matchAt repl (rest.drop n)
      (repl ++ r.1, (c :: rest.take n) :: r.2)
  termination_by s => s.length
  decreasing_by all_goals simp <;> omega

/-- One regex rule, as in the source: read `replacement_type` (default
`"mask"`) and `replacement_value` (default `"***"`); the `"mask"` branch
and the fallback branch for any other type perform the same global
substitution, logging `(matchedText, replacement_value)` per match. -/
def apply_regex_rule (st : Str × List (Str × Str)) (rule : RegexRule) :
    Str × List (Str × Str) :=
  let rtype := rule.replacement_type.getD "mask"
  let rv := rule.replacement_value.getD "***".data
  if rtype = "mask" then
    let r := reSubGo rule.pattern rv st.1
    (r.1, st.2 ++ r.2.map (fun m => (m, rv)))
  else
    let r := reSubGo rule.pattern rv st.1
    (r.1, st.2 ++ r.2.map (fun m => (m, rv)))

/-- `apply_regex_replacements`: the rules in list order over the current
text, with a shared log. -/
def apply_regex_replacements (text : Str) (rules : List RegexRule) :
    Str × List (Str × Str) :=
  rules.foldl apply_regex_rule (text, [])

/-! ## `anonymize_text`: the staged substitution engine -/

/-- `anonymize_text`: knowledge-base pass on the input text, exact map
pass on its output, regex pass on that output; the log is the
concatenation of the three stage logs. -/
def anonymize_text (score : Str → Str → ℚ) (rules : RuleSet) (text : Str) :
    Str × List (Str × Str) :=
  let kb := kb_pass score rules.customers text
  let ex := apply_exact_replacements kb.1 rules.exact_replacements
  let rg := apply_regex_replacements ex.1 rules.regex_replacements
  (rg.1, kb.2 ++ ex.2 ++ rg.2)

/-- Matching semantics of the escaped literal pattern `pat`: at a given
suffix it matches exactly when `pat` is a prefix, with length `pat`. -/
def litPattern (pat : Str) (s : Str) : Option Nat :=
  if pat.isPrefixOf s then some pat.length else none

/-! ## Font width estimation (`handlers_pdf._get_text_width`) -/

/-- `_get_text_width`: empty text has width `0`; with a per-character
advance-width table (units per 1000 em) the width is the summed character
widths scaled by `fontSize / 1000`; when the font-metric lookup is
unavailable the fallback estimate `len(text) * fontSize * 0.6` is used.
The table argument already incorporates the `charWidths.get(ord(c), 500)`
default of the source. -/
def get_text_width (cw : Option (Char → ℚ)) (text : Str) (fontSize : ℚ) : ℚ :=
  if text.isEmpty then 0
  else
    match cw with
    | some f => (text.map f).sum * fontSize / 1000
    | none => (text.length : ℚ) * fontSize * (6 / 10)

/-! ## Text fit adjuster (`handlers_pdf._fit_text_to_width`) -/

/-- `_fit_text_to_width`: return the input unchanged when the text is
empty or the available width is not positive, or when the estimated width
already fits; otherwise shrink the font size proportionally when the
shrunken size stays at or above `minFontSize`; otherwise clamp to
`minFontSize` and truncate to `max 1 (chars - 3)` characters plus an
ellipsis when fewer characters than the text's length fit
(`chars = int(len(text) * max_width / current_width)`). -/
def fit_text_to_width (cw : Option (Char → ℚ)) (text : Str)
    (fontSize maxWidth minFontSize : ℚ) : Str × ℚ :=
  if text.isEmpty ∨ maxWidth ≤ 0 then (text, fontSize)
  else
    let currentWidth := get_text_width cw text fontSize
    if currentWidth ≤ maxWidth then (text, fontSize)
    else
      let adjusted := fontSize * (maxWidth / currentWidth)
      if minFontSize ≤ adjusted then (text, adjusted)
      else
        let chars := (⌊(text.length : ℚ) * maxWidth / currentWidth⌋).toNat
        if chars < text.length then
          (text.take (max 1 (chars - 3)) ++ ['.', '.', '.'], minFontSize)
        else (text, minFontSize)

/-! ## Word geometry model (one `<word>` element of the XML tree) -/

/-- A word box as produced by `pdf_to_xml`: geometry, font hint, and the
current text.  Coordinates and sizes are exact rationals. -/
structure Word where
  x0 : ℚ
  x1 : ℚ
  top : ℚ
  bottom : ℚ
  width : ℚ
  height : ℚ
  font : String
  size : ℚ
  text : Str
deriving DecidableEq

/-- Default word box (used only as the `getD` fallback value). -/
def wDefault : Word := ⟨0, 0, 0, 0, 0, 0, "", 0, []⟩

/-! ## Line grouping (`pdf_to_xml`) -/

/-- Round-half-to-even on rationals (Python `round` tie behaviour). -/
def roundHalfEven (q : ℚ) : ℤ :=
  let n := ⌊q⌋
  let frac := q - n
  if frac < 1 / 2 then n
  else if 1 / 2 < frac then n + 1
  else if n % 2 = 0 then n else n + 1

/-- Python `round(x, 1)`: round to one decimal digit, ties to even. -/
def round1 (q : ℚ) : ℚ := (roundHalfEven (10 * q) : ℚ) / 10

/-- The sort key order of `words.sort(key=lambda w: (round(w["top"], 1),
w["x0"]))`: lexicographic on the rounded top, then the left edge. -/
def keyLe (a b : Word) : Prop :=
  round1 a.top < round1 b.top ∨
    (round1 a.top = round1 b.top ∧ a.x0 ≤ b.x0)

instance : DecidableRel keyLe := fun a b => by
  unfold keyLe; infer_instance

instance : IsTotal Word keyLe := by
  constructor
  intro a b
  rcases lt_trichotomy (round1 a.top) (round1 b.top) with h | h | h
  · exact Or.inl (Or.inl h)
  · rcases le_total a.x0 b.x0 with h' | h'
    · exact Or.inl (Or.inr ⟨h, h'⟩)
    · exact Or.inr (Or.inr ⟨h.symm, h'⟩)
  · exact Or.inr (Or.inl h)

instance : IsTrans Word keyLe := by
  constructor
  intro a b c hab hbc
  rcases hab with h | ⟨he, hx⟩ <;> rcases hbc with h' | ⟨he', hx'⟩
  · exact Or.inl (h.trans h')
  · exact Or.inl (he' ▸ h)
  · exact Or.inl (he ▸ h')
  · exact Or.inr ⟨he.trans he', hx.trans hx'⟩

/-- The sorting step of the line grouper (Python's stable sort by the
lexicographic key). -/
def sort_words (ws : List Word) : List Word := List.insertionSort keyLe ws

/-- One step of the grouping walk: split the remaining sorted words into
the tail of the current line (rounded tops within `2.0` of the anchor)
and the remainder, stopping at the first word whose rounded top differs
from the anchor by more than the fixed tolerance `2.0`. -/
def splitLine (anchor : ℚ) : List Word → List Word × List Word
  | [] => ([], [])
  | w :: ws =>
    if 2 < |round1 w.top - anchor| then ([], w :: ws)
    else
      let r := splitLine anchor ws
      (w :: r.1, r.2)

theorem splitLine_snd_length (anchor : ℚ) (ws : List Word) :
    (splitLine anchor ws).2.length ≤ ws.length := by
  induction ws with
  | nil => simp [splitLine]
  | cons w ws ih =>
    simp only [splitLine]
    split
    · simp
    · simpa using Nat.le_succ_of_le ih

/-- The single grouping pass over the already-sorted words: each line is
opened by its first word, whose rounded top becomes the line anchor. -/
def group_sorted : List Word → List (List Word)
  | [] => []
  | w :: ws =>
    let r := splitLine (round1 w.top) ws
    (w :: r.1) :: group_sorted r.2
  termination_by l => l.length
  decreasing_by
    simp only [List.length_cons]
    exact Nat.lt_succ_of_le (splitLine_snd_length _ _)

/-- The line grouper of `pdf_to_xml`: sort by `(round(top, 1), x0)`, then
walk once, starting a new line when the rounded top is more than `2.0`
from the current anchor. -/
def group_lines (ws : List Word) : List (List Word) :=
  group_sorted (sort_words ws)

/-! ## Token reflow (`anonymize_xml`) -/

/-- Python `s.split(sep)` for a single-character separator (empty pieces
kept, as in Python). -/
def pySplit (sep : Char) : Str → List Str
  | [] => [[]]
  | c :: rest =>
    match pySplit sep rest with
    | [] => [[]]
    | g :: gs => if c = sep then [] :: g :: gs else (c :: g) :: gs

/-- `[t for t in new_line.split(" ") if t]`: split on the space character
and drop empty tokens. -/
def split_tokens (s : Str) : List Str :=
  (pySplit ' ' s).filter (fun t => !t.isEmpty)

/-- The `M > N` distribution loop of `anonymize_xml`: box at running index
`i` receives `base + 1` tokens when `i < rem` and `base` otherwise, taken
from the front of the remaining tokens and joined by single spaces. -/
def reflow_distribute (toks : List Str) (base rem : Nat) :
    Nat → List Word → List Word
  | _, [] => []
  | i, w :: ws =>
    let tta := if i < rem then base + 1 else base
    { w with text := List.intercalate [' '] (toks.take tta) } ::
      reflow_distribute (toks.drop tta) base rem (i + 1) ws

/-- The token redistribution of `anonymize_xml` on one line: `M = N`
assigns tokens one to one, `M < N` fills the first `M` boxes and blanks
the rest, `M > N` distributes with `base = M / N` and `rem = M % N`. -/
def reflow_line (ws : List Word) (toks : List Str) : List Word :=
  if toks.length = ws.length then
    List.zipWith (fun w t => { w with text := t }) ws toks
  else if toks.length < ws.length then
    List.zipWith (fun w t => { w with text := t }) (ws.take toks.length) toks
      ++ (ws.drop toks.length).map (fun w => { w with text := [] })
  else
    reflow_distribute toks (toks.length / ws.length) (toks.length % ws.length) 0 ws

/-- The per-line body of `anonymize_xml`: skip empty lines, otherwise
join the boxes' texts with single spaces, anonymize the joined line, split
the result on spaces and reflow the tokens over the boxes. -/
def anonymize_line (score : Str → Str → ℚ) (rules : RuleSet)
    (ws : List Word) : List Word :=
  if ws.isEmpty then ws
  else
    reflow_line ws
      (split_tokens
        (anonymize_text score rules
          (List.intercalate [' '] (ws.map Word.text))).1)

/-! ## Definitions taken from the specification's words (for comparison) -/

/-- Splitting on arbitrary whitespace characters (empty pieces kept). -/
def splitWs : Str → List Str
  | [] => [[]]
  | c :: rest =>
    match splitWs rest with
    | [] => [[]]
    | g :: gs => if c.isWhitespace then [] :: g :: gs else (c :: g) :: gs

/-- Modelled from the claim's words: split the new text on whitespace,
discarding empty tokens. -/
def whitespace_tokens (s : Str) : List Str :=
  (splitWs s).filter (fun t => !t.isEmpty)

/-- Modelled from the claim's words: the text assigned to box `i`
(0-indexed) of a line of `N` boxes given the token list — one to one when
`M = N`; the first `M` boxes get the tokens and the rest become empty when
`M < N`; with `base = M / N` and `rem = M % N`, box `i` receives
`base + 1` tokens when `i < rem` and `base` otherwise, taken in order from
a running cursor and joined by single spaces, when `M > N`. -/
def reflow_claim_text (toks : List Str) (N i : Nat) : Str :=
  let M := toks.length
  if M = N then toks.getD i []
  else if M < N then (if i < M then toks.getD i [] else [])
  else
    let base := M / N
    let rem := M % N
    List.intercalate [' ']
      ((toks.drop (base * i + min i rem)).take
        (if i < rem then base + 1 else base))

/-- Decomposition witness shape for global substitution: the text between
and around the matches.  `interleaveSegs [s₀, …, s_k] [m₁, …, m_k]`
is `s₀ ++ m₁ ++ s₁ ++ … ++ m_k ++ s_k`. -/
def interleaveSegs : List Str → List Str → Str
  | [], _ => []
  | s :: _, [] => s
  | s :: ss, m :: ms => s ++ m ++ interleaveSegs ss ms

/-! ## Helper lemmas: token reflow -/

/-- Erase the text of a box, keeping all geometry and style fields. -/
def eraseText (w : Word) : Word := { w with text := [] }

theorem reflow_distribute_length (toks : List Str) (base rem : Nat) :
    ∀ (i : Nat) (ws : List Word),
      (reflow_distribute toks base rem i ws).length = ws.length := by
  intro i ws
  induction ws generalizing toks i with
  | nil => simp [reflow_distribute]
  | cons w ws ih => simp [reflow_distribute, ih]

theorem reflow_line_length (ws : List Word) (toks : List Str) :
    (reflow_line ws toks).length = ws.length := by
  unfold reflow_line
  split
  · rename_i h
    simp [h]
  · split
    · rename_i h h'
      simp
      omega
    · exact reflow_distribute_length _ _ _ _ _

theorem reflow_distribute_map_erase (toks : List Str) (base rem : Nat) :
    ∀ (i : Nat) (ws : List Word),
      (reflow_distribute toks base rem i ws).map eraseText
        = ws.map eraseText := by
  intro i ws
  induction ws generalizing toks i with
  | nil => simp [reflow_distribute]
  | cons w ws ih =>
    simp only [reflow_distribute, List.map_cons, ih]
    rfl

theorem zipWith_setText_map_erase :
    ∀ (ws : List Word) (toks : List Str), toks.length = ws.length →
      (List.zipWith (fun w t => { w with text := t }) ws toks).map eraseText
        = ws.map eraseText := by
  intro ws
  induction ws with
  | nil => simp
  | cons w ws ih =>
    intro toks h
    cases toks with
    | nil => simp at h
    | cons t toks =>
      simp only [List.zipWith_cons_cons, List.map_cons]
      rw [ih toks (by simpa using h)]
      rfl

theorem reflow_line_map_erase (ws : List Word) (toks : List Str) :
    (reflow_line ws toks).map eraseText = ws.map eraseText := by
  unfold reflow_line
  split
  · rename_i h
    exact zipWith_setText_map_erase ws toks h
  · split
    · rename_i h h'
      rw [List.map_append]
      rw [zipWith_setText_map_erase (ws.take toks.length) toks
        (by simp; omega)]
      conv_rhs => rw [← List.take_append_drop toks.length ws, List.map_append]
      congr 1
      simp only [List.map_map]
      rfl
    · exact reflow_distribute_map_erase _ _ _ _ _

theorem zipWith_setText_getD :
    ∀ (ws : List Word) (toks : List Str) (i : Nat), i < ws.length →
      i < toks.length →
      (List.zipWith (fun w t => { w with text := t }) ws toks).getD i wDefault
        = { ws.getD i wDefault with text := toks.getD i [] } := by
  intro ws
  induction ws with
  | nil => intro toks i h; simp at h
  | cons w ws ih =>
    intro toks i h h'
    cases toks with
    | nil => simp at h'
    | cons t toks =>
      cases i with
      | zero => simp
      | succ i =>
        simp only [List.zipWith_cons_cons, List.getD_cons_succ]
        exact ih toks i (by simpa using h) (by simpa using h')

theorem reflow_distribute_getD (base rem : Nat) :
    ∀ (ws : List Word) (j : Nat) (toks : List Str) (i0 : Nat),
      j < ws.length →
      (reflow_distribute toks base rem i0 ws).getD j wDefault =
        { ws.getD j wDefault with
            text := List.intercalate [' ']
              ((toks.drop (base * j + (min (i0 + j) rem - min i0 rem))).take
                (if i0 + j < rem then base + 1 else base)) } := by
  intro ws
  induction ws with
  | nil => intro j toks i0 h; simp at h
  | cons w ws ih =>
    intro j toks i0 h
    cases j with
    | zero =>
      simp only [reflow_distribute, List.getD_cons_zero]
      norm_num
    | succ j =>
      have hj : j < ws.length := by simpa using h
      simp only [reflow_distribute, List.getD_cons_succ]
      rw [ih j _ (i0 + 1) hj]
      have hn : i0 + 1 + j = i0 + (j + 1) := by omega
      rw [hn]
      have harg :
          ((toks.drop (if i0 < rem then base + 1 else base)).drop
              (base * j + (min (i0 + (j + 1)) rem - min (i0 + 1) rem)))
            = toks.drop (base * (j + 1) + (min (i0 + (j + 1)) rem - min i0 rem)) := by
        rw [List.drop_drop]
        congr 1
        rw [Nat.mul_succ]
        by_cases h0 : i0 < rem
        · rw [if_pos h0]; omega
        · rw [if_neg h0]; omega
      rw [harg]

theorem map_blank_getD_text (l : List Word) (n : Nat) :
    ((l.map fun w => { w with text := ([] : Str) }).getD n wDefault).text = [] := by
  by_cases h : n < l.length
  · rw [List.getD_eq_getElem _ _ (by simpa using h)]
    simp
  · rw [List.getD_eq_default _ _ (by simp; omega)]
    rfl

/-- C2 (amended): the Token Reflow Engine splits the line's new anonymized
text on the space character (not on arbitrary whitespace), discarding
empty tokens, to obtain `M` tokens, and over the line's `N ≥ 1` original
word boxes assigns token text exactly as described: one to one when
`M = N`; the first `M` boxes get the tokens and the remaining boxes become
empty when `M < N`; and, when `M > N`, with `base = M / N` and
`rem = M % N`, box `i` receives `base + 1` tokens when `i < rem` and
`base` otherwise, taken in order from a running cursor and joined by
single spaces. -/
theorem claim_C2_reflow_distribution (ws : List Word) (newText : Str)
    (i : Nat) (h : i < ws.length) :
    ((reflow_line ws (split_tokens newText)).getD i wDefault).text
      = reflow_claim_text (split_tokens newText) ws.length i := by
  generalize split_tokens newText = toks
  simp only [reflow_line, reflow_claim_text]
  by_cases h1 : toks.length = ws.length
  · rw [if_pos h1, if_pos h1]
    rw [zipWith_setText_getD ws toks i h (by omega)]
  · rw [if_neg h1, if_neg h1]
    by_cases h2 : toks.length < ws.length
    · rw [if_pos h2, if_pos h2]
      by_cases h3 : i < toks.length
      · rw [if_pos h3]
        rw [List.getD_append _ _ _ _ (by simp; omega)]
        rw [zipWith_setText_getD (ws.take toks.length) toks i (by simp; omega) h3]
      · rw [if_neg h3]
        rw [List.getD_append_right _ _ _ _ (by simp; omega)]
        exact map_blank_getD_text _ _
    · rw [if_neg h2, if_neg h2]
      rw [reflow_distribute_getD _ _ ws i toks 0 h]
      simp

/-- C2 counterexample: the code splits the new line text on the space
character only (`new_line.split(" ")`), not on arbitrary whitespace.  For
a one-box line and new text `"a\tb"` the code leaves the single
space-token `"a\tb"` in the box, while the claim's whitespace splitting
predicts the two tokens `"a"`, `"b"` redistributed as `"a b"`. -/
theorem claim_C2_counterexample :
    ((reflow_line [⟨0, 0, 0, 0, 0, 0, "Helvetica", 10, ['x']⟩]
        (split_tokens ['a', '\t', 'b'])).getD 0 wDefault).text
      ≠ reflow_claim_text (whitespace_tokens ['a', '\t', 'b']) 1 0 := by
  decide

theorem claim_C2_witness :
    0 < ([⟨0, 0, 0, 0, 0, 0, "Helvetica", 10, ['x']⟩] : List Word).length ∧
    ((reflow_line [⟨0, 0, 0, 0, 0, 0, "Helvetica", 10, ['x']⟩]
        (split_tokens ['a', ' ', 'b'])).getD 0 wDefault).text
      = reflow_claim_text (split_tokens ['a', ' ', 'b']) 1 0 :=
  ⟨by decide, claim_C2_reflow_distribution _ _ 0 (by decide)⟩

/-- C5: for every line and any token count, the reflow stage of
`anonymize_xml` leaves exactly the original number of word boxes in the
line, and only the boxes' `text` fields are modified. -/
theorem claim_C5_reflow_box_invariant (score : Str → Str → ℚ)
    (rules : RuleSet) (ws : List Word) :
    (anonymize_line score rules ws).length = ws.length ∧
    (anonymize_line score rules ws).map eraseText = ws.map eraseText := by
  unfold anonymize_line
  split
  · exact ⟨rfl, rfl⟩
  · exact ⟨reflow_line_length _ _, reflow_line_map_erase _ _⟩

/-! ## Claims about the Text Fit Adjuster -/

/-- C10: when the box's text is empty or the available width is not
positive, `_fit_text_to_width` returns the input text and font size
completely unchanged — no shrinking and no truncation is attempted. -/
theorem claim_C10_fit_guard (cw : Option (Char → ℚ)) (text : Str)
    (fontSize maxWidth minFontSize : ℚ)
    (h : text = [] ∨ maxWidth ≤ 0) :
    fit_text_to_width cw text fontSize maxWidth minFontSize
      = (text, fontSize) := by
  unfold fit_text_to_width
  rw [if_pos]
  rcases h with h | h
  · exact Or.inl (by simp [h])
  · exact Or.inr h

theorem claim_C10_witness :
    (([] : Str) = [] ∨ (5 : ℚ) ≤ 0) ∧
      fit_text_to_width none [] 12 5 4 = ([], 12) :=
  ⟨Or.inl rfl, claim_C10_fit_guard none [] 12 5 4 (Or.inl rfl)⟩

/-- C4 counterexample: at text `"a"`, character width `500`, font size
`2` and available width `1/2`, the adjuster reaches the truncation branch
and returns `("a...", 4.0)`: the returned font size `4.0` exceeds the
input size `2`, and the returned text (4 characters) is longer than the
1-character input. -/
theorem claim_C4_counterexample :
    (2 : ℚ) < (fit_text_to_width (some fun _ => 500) ['a'] 2 (1/2) 4).2 ∧
    (['a'] : Str).length
      < (fit_text_to_width (some fun _ => 500) ['a'] 2 (1/2) 4).1.length := by
  have h : fit_text_to_width (some fun _ => 500) ['a'] 2 (1/2) 4
      = (['a', '.', '.', '.'], 4) := by
    simp only [fit_text_to_width, get_text_width]
    norm_num
  rw [h]
  norm_num

/-- C4 (amended): with the fixed floor `4.0`, the adjuster returns a font
size of at most `max fontSize 4.0` (so it never exceeds the input size
whenever that size is at least the floor), returns a text of at most
`max (length text) 4` characters (so never longer than the input once the
input has at least 4 characters), and either returns the text unchanged
or, when it truncates (`chars = ⌊len(text)·w / estimatedWidth⌋` characters
fit, fewer than the text's length), returns the prefix of exactly
`max 1 (chars - 3)` characters of the original text followed by a
three-character ellipsis, at the floor size; that prefix is non-empty, so
at least one character of the original text is always retained. -/
theorem claim_C4_fit_bounds (cw : Option (Char → ℚ)) (text : Str)
    (fs w : ℚ) :
    (fit_text_to_width cw text fs w 4).2 ≤ max fs 4 ∧
    (fit_text_to_width cw text fs w 4).1.length ≤ max text.length 4 ∧
    ((fit_text_to_width cw text fs w 4).1 = text ∨
      ((fit_text_to_width cw text fs w 4).2 = 4 ∧
        (⌊(text.length : ℚ) * w / get_text_width cw text fs⌋).toNat
          < text.length ∧
        (fit_text_to_width cw text fs w 4).1
          = text.take
              (max 1
                ((⌊(text.length : ℚ) * w / get_text_width cw text fs⌋).toNat
                  - 3))
              ++ ['.', '.', '.'] ∧
        text.take
            (max 1
              ((⌊(text.length : ℚ) * w / get_text_width cw text fs⌋).toNat
                - 3))
          ≠ [])) := by
  simp only [fit_text_to_width]
  split_ifs with h1 h2 h3 h4
  · exact ⟨le_max_left _ _, le_max_left _ _, Or.inl rfl⟩
  · exact ⟨le_max_left _ _, le_max_left _ _, Or.inl rfl⟩
  · refine ⟨?_, le_max_left _ _, Or.inl rfl⟩
    have hne : ¬(text.isEmpty = true) ∧ ¬(w ≤ 0) := by
      constructor <;> intro hx <;> exact h1 (by tauto)
    have hw : 0 < w := not_le.mp hne.2
    have hW : w < get_text_width cw text fs := not_le.mp h2
    have hWpos : 0 < get_text_width cw text fs := lt_trans hw hW
    have hr : w / get_text_width cw text fs < 1 := (div_lt_one hWpos).mpr hW
    have hr0 : 0 < w / get_text_width cw text fs := div_pos hw hWpos
    have hfs0 : 0 < fs := by nlinarith
    calc fs * (w / get_text_width cw text fs) ≤ fs * 1 := by nlinarith
    _ = fs := mul_one fs
    _ ≤ max fs 4 := le_max_left _ _
  · have hne : ¬(text.isEmpty = true) := fun hx => h1 (Or.inl hx)
    have htne : text ≠ [] := by simpa [List.isEmpty_iff] using hne
    refine ⟨le_max_right _ _, ?_, Or.inr ⟨rfl, h4, rfl, ?_⟩⟩
    · simp only [List.length_append, List.length_take, List.length_cons,
        List.length_nil]
      rcases le_total
          ((⌊(text.length : ℚ) * w / get_text_width cw text fs⌋).toNat - 3) 1
        with hc | hc
      · rw [max_eq_left hc]
        have h5 : min 1 text.length ≤ 1 := min_le_left _ _
        have h6 : 4 ≤ max text.length 4 := le_max_right _ _
        omega
      · rw [max_eq_right hc, min_eq_left (by omega)]
        have h6 : text.length ≤ max text.length 4 := le_max_left _ _
        omega
    · rw [Ne, List.take_eq_nil_iff]
      push_neg
      exact ⟨(Nat.lt_of_lt_of_le Nat.zero_lt_one (le_max_left _ _)).ne', htne⟩
  · exact ⟨le_max_right _ _, le_max_left _ _, Or.inl rfl⟩

/-- C3 counterexample: the adjuster is not monotone in the available
width.  With ten characters of width `500` and font size `2`, width `5`
reaches the floor and returns size `4.0` while the larger width `10` fits
and returns the input size `2`; and with font size `12`, the non-positive
width `0` returns `12` unchanged while the larger width `30` shrinks the
size to `6`. -/
theorem claim_C3_counterexample :
    ((0 : ℚ) < 5 ∧ (5 : ℚ) ≤ 10 ∧
      (fit_text_to_width (some fun _ => 500)
          ['a', 'a', 'a', 'a', 'a', 'a', 'a', 'a', 'a', 'a'] 2 10 4).2
        < (fit_text_to_width (some fun _ => 500)
            ['a', 'a', 'a', 'a', 'a', 'a', 'a', 'a', 'a', 'a'] 2 5 4).2) ∧
    ((0 : ℚ) ≤ 30 ∧
      (fit_text_to_width (some fun _ => 500)
          ['a', 'a', 'a', 'a', 'a', 'a', 'a', 'a', 'a', 'a'] 12 30 4).2
        < (fit_text_to_width (some fun _ => 500)
            ['a', 'a', 'a', 'a', 'a', 'a', 'a', 'a', 'a', 'a'] 12 0 4).2) := by
  have h1 : fit_text_to_width (some fun _ => 500)
      ['a', 'a', 'a', 'a', 'a', 'a', 'a', 'a', 'a', 'a'] 2 10 4
      = (['a', 'a', 'a', 'a', 'a', 'a', 'a', 'a', 'a', 'a'], 2) := by
    simp only [fit_text_to_width, get_text_width]
    norm_num
  have h2 : (fit_text_to_width (some fun _ => 500)
      ['a', 'a', 'a', 'a', 'a', 'a', 'a', 'a', 'a', 'a'] 2 5 4).2 = 4 := by
    simp only [fit_text_to_width, get_text_width]
    norm_num
  have h3 : fit_text_to_width (some fun _ => 500)
      ['a', 'a', 'a', 'a', 'a', 'a', 'a', 'a', 'a', 'a'] 12 30 4
      = (['a', 'a', 'a', 'a', 'a', 'a', 'a', 'a', 'a', 'a'], 6) := by
    simp only [fit_text_to_width, get_text_width]
    norm_num
  have h4 : fit_text_to_width (some fun _ => 500)
      ['a', 'a', 'a', 'a', 'a', 'a', 'a', 'a', 'a', 'a'] 12 0 4
      = (['a', 'a', 'a', 'a', 'a', 'a', 'a', 'a', 'a', 'a'], 12) := by
    simp only [fit_text_to_width, get_text_width]
    norm_num
  rw [h1, h2, h3, h4]
  norm_num

/-- C3 (amended): for a fixed text, font table and starting font size of
at least the `4.0` floor, and positive available widths, the adjuster is
monotone: `0 < w₁ ≤ w₂` implies the size returned for `w₁` is at most the
size returned for `w₂`. -/
theorem claim_C3_fit_monotone (cw : Option (Char → ℚ)) (text : Str)
    (fs w1 w2 : ℚ) (h0 : 0 < w1) (h12 : w1 ≤ w2) (hfs : 4 ≤ fs) :
    (fit_text_to_width cw text fs w1 4).2
      ≤ (fit_text_to_width cw text fs w2 4).2 := by
  have hw2 : (0 : ℚ) < w2 := lt_of_lt_of_le h0 h12
  by_cases hemp : text.isEmpty
  · simp only [fit_text_to_width, hemp, true_or, if_pos]
    exact le_refl fs
  · simp only [fit_text_to_width]
    have hg1 : ¬(text.isEmpty = true ∨ w1 ≤ 0) :=
      fun hcon => hcon.elim hemp (fun hx => not_le.mpr h0 hx)
    have hg2 : ¬(text.isEmpty = true ∨ w2 ≤ 0) :=
      fun hcon => hcon.elim hemp (fun hx => not_le.mpr hw2 hx)
    rw [if_neg hg1, if_neg hg2]
    by_cases hW1 : get_text_width cw text fs ≤ w1
    · rw [if_pos hW1, if_pos (le_trans hW1 h12)]
    · have hw1W : w1 < get_text_width cw text fs := not_le.mp hW1
      have hWpos : 0 < get_text_width cw text fs := lt_trans h0 hw1W
      have hr1 : fs * (w1 / get_text_width cw text fs) ≤ fs := by
        have hd : w1 / get_text_width cw text fs ≤ 1 :=
          (div_le_one hWpos).mpr hw1W.le
        have hd0 : 0 < w1 / get_text_width cw text fs := div_pos h0 hWpos
        nlinarith
      rw [if_neg hW1]
      by_cases hW2 : get_text_width cw text fs ≤ w2
      · rw [if_pos hW2]
        split_ifs with h3 h4
        · exact hr1
        · dsimp only
          linarith
        · dsimp only
          linarith
      · rw [if_neg hW2]
        have hca : fs * (w1 / get_text_width cw text fs)
            ≤ fs * (w2 / get_text_width cw text fs) := by
          have hd : w1 / get_text_width cw text fs
              ≤ w2 / get_text_width cw text fs := by gcongr
          nlinarith
        split_ifs with h3 h4 h5 h6 h7 h8 <;> dsimp only <;> linarith

theorem claim_C3_witness :
    (0 : ℚ) < 1 ∧ (1 : ℚ) ≤ 2 ∧ (4 : ℚ) ≤ 12 ∧
    (fit_text_to_width none ['a'] 12 1 4).2
      ≤ (fit_text_to_width none ['a'] 12 2 4).2 :=
  ⟨by norm_num, by norm_num, by norm_num,
    claim_C3_fit_monotone none ['a'] 12 1 2 (by norm_num) (by norm_num)
      (by norm_num)⟩

/-! ## Claims about the Substitution Engine -/

/-- C1: in the knowledge-base customer pass (which folds over the
customers in list order and, within a customer, over the non-empty
candidates `[name] + aliases` in list order), the per-candidate step
behaves exactly as claimed for an arbitrary partial-ratio scorer: an exact
substring occurrence replaces all occurrences and logs the pair, skipping
the fuzzy check; otherwise a score of at least `90` (in particular
exactly `90`) performs the case-insensitive literal substitution and logs
the pair; a score of `89` or below leaves text and log unchanged. -/
theorem claim_C1_kb_candidate_semantics (score : Str → Str → ℚ)
    (repl text : Str) (logs : List (Str × Str)) (cand : Str) :
    (containsSub cand text = true →
      kb_candidate_step score repl (text, logs) cand
        = (pyReplace text cand repl, logs ++ [(cand, repl)])) ∧
    (containsSub cand text = false → 90 ≤ score cand text →
      kb_candidate_step score repl (text, logs) cand
        = (ciReplace text cand repl, logs ++ [(cand, repl)])) ∧
    (containsSub cand text = false → score cand text ≤ 89 →
      kb_candidate_step score repl (text, logs) cand = (text, logs)) ∧
    (∀ customers, kb_pass score customers text
      = customers.foldl (kb_customer_step score) (text, [])) ∧
    (∀ c : Customer, kb_customer_step score (text, logs) c
      = (kb_candidates c).foldl
          (kb_candidate_step score (kb_replacement c)) (text, logs)) ∧
    (∀ c : Customer, kb_candidates c
      = (c.name :: c.aliases).filter (fun n => !n.isEmpty)) := by
  refine ⟨?_, ?_, ?_, fun _ => rfl, fun _ => rfl, fun _ => rfl⟩
  · intro h
    simp [kb_candidate_step, h]
  · intro h h90
    simp [kb_candidate_step, h, h90]
  · intro h h89
    have : ¬(90 ≤ score cand text) := by linarith
    simp [kb_candidate_step, h, this]

theorem claim_C1_witness :
    (containsSub ['a'] ['a'] = true ∧
      kb_candidate_step (fun _ _ => 0) ['r'] (['a'], []) ['a']
        = (pyReplace ['a'] ['a'] ['r'], [(['a'], ['r'])])) ∧
    (containsSub ['a'] ['b'] = false ∧ (90 : ℚ) ≤ 90 ∧
      kb_candidate_step (fun _ _ => 90) ['r'] (['b'], []) ['a']
        = (ciReplace ['b'] ['a'] ['r'], [(['a'], ['r'])])) ∧
    (containsSub ['a'] ['b'] = false ∧ (89 : ℚ) ≤ 89 ∧
      kb_candidate_step (fun _ _ => 89) ['r'] (['b'], []) ['a']
        = (['b'], [])) :=
  ⟨⟨by decide,
      (claim_C1_kb_candidate_semantics (fun _ _ => 0) ['r'] ['a'] [] ['a']).1
        (by decide)⟩,
    ⟨by decide, le_refl 90,
      (claim_C1_kb_candidate_semantics (fun _ _ => 90) ['r'] ['b'] [] ['a']).2.1
        (by decide) (le_refl 90)⟩,
    ⟨by decide, le_refl 89,
      (claim_C1_kb_candidate_semantics (fun _ _ => 89) ['r'] ['b'] [] ['a']).2.2.1
        (by decide) (le_refl 89)⟩⟩

/-- C9: a customer entry without a `replacement` value uses the default
replacement string `"[CLIENTE]"`, and whenever one of its candidates
fires (exactly or fuzzily) the appended log entry carries that default
string as the replacement. -/
theorem claim_C9_default_replacement (c : Customer)
    (h : c.replacement = none) :
    kb_replacement c = "[CLIENTE]".data ∧
    ∀ (score : Str → Str → ℚ) (text : Str) (logs : List (Str × Str))
      (cand : Str),
      (containsSub cand text = true ∨ 90 ≤ score cand text) →
      (kb_candidate_step score (kb_replacement c) (text, logs) cand).2
        = logs ++ [(cand, "[CLIENTE]".data)] := by
  have hrep : kb_replacement c = "[CLIENTE]".data := by
    simp [kb_replacement, h]
  refine ⟨hrep, ?_⟩
  intro score text logs cand hc
  rw [hrep]
  by_cases hsub : containsSub cand text
  · simp [kb_candidate_step, hsub]
  · rcases hc with hc | hc
    · exact absurd hc hsub
    · simp [kb_candidate_step, hsub, hc]

theorem claim_C9_witness :
    (Customer.mk ['K'] [] none).replacement = none ∧
    kb_replacement (Customer.mk ['K'] [] none) = "[CLIENTE]".data ∧
    containsSub ['K'] ['K'] = true ∧
    (kb_candidate_step (fun _ _ => 0)
        (kb_replacement (Customer.mk ['K'] [] none)) (['K'], []) ['K']).2
      = [(['K'], "[CLIENTE]".data)] :=
  ⟨rfl, (claim_C9_default_replacement (Customer.mk ['K'] [] none) rfl).1,
    by decide,
    (claim_C9_default_replacement (Customer.mk ['K'] [] none) rfl).2
      (fun _ _ => 0) ['K'] [] ['K'] (Or.inl (by decide))⟩

theorem apply_regex_rule_append (st : Str × List (Str × Str))
    (r : RegexRule) :
    apply_regex_rule st r
      = ((apply_regex_rule (st.1, []) r).1,
          st.2 ++ (apply_regex_rule (st.1, []) r).2) := by
  simp only [apply_regex_rule]
  split <;> simp

theorem apply_regex_foldl_append :
    ∀ (rules : List RegexRule) (t : Str) (l : List (Str × Str)),
      rules.foldl apply_regex_rule (t, l)
        = ((rules.foldl apply_regex_rule (t, [])).1,
            l ++ (rules.foldl apply_regex_rule (t, [])).2) := by
  intro rules
  induction rules with
  | nil => intro t l; simp
  | cons r rs ih =>
    intro t l
    simp only [List.foldl_cons]
    rw [apply_regex_rule_append (t, l) r, apply_regex_rule_append (t, []) r]
    simp only [List.nil_append]
    rw [ih (apply_regex_rule (t, []) r).1
        (l ++ (apply_regex_rule (t, []) r).2),
      ih (apply_regex_rule (t, []) r).1 (apply_regex_rule (t, []) r).2]
    simp [List.append_assoc]

theorem interleave_cons_head (c : Char) (s0 : Str) (ss ms : List Str) :
    interleaveSegs ((c :: s0) :: ss) ms
      = c :: interleaveSegs (s0 :: ss) ms := by
  cases ms with
  | nil => rfl
  | cons m ms => simp [interleaveSegs]

theorem reSub_decomp_bound (matchAt : Str → Option Nat) (repl : Str) :
    ∀ (n : Nat) (t : Str), t.length ≤ n →
      ∃ segs : List Str,
        segs.length = (reSubGo matchAt repl t).2.length + 1 ∧
        interleaveSegs segs (reSubGo matchAt repl t).2 = t ∧
        interleaveSegs segs ((reSubGo matchAt repl t).2.map fun _ => repl)
          = (reSubGo matchAt repl t).1 := by
  intro n
  induction n with
  | zero =>
    intro t ht
    have hte : t = [] := List.eq_nil_of_length_eq_zero (Nat.le_zero.mp ht)
    subst hte
    cases hm : matchAt [] with
    | some k =>
      refine ⟨[[], []], ?_, ?_, ?_⟩ <;> simp [reSubGo, hm, interleaveSegs]
    | none =>
      refine ⟨[[]], ?_, ?_, ?_⟩ <;> simp [reSubGo, hm, interleaveSegs]
  | succ n ih =>
    intro t ht
    cases t with
    | nil =>
      cases hm : matchAt [] with
      | some k =>
        refine ⟨[[], []], ?_, ?_, ?_⟩ <;> simp [reSubGo, hm, interleaveSegs]
      | none =>
        refine ⟨[[]], ?_, ?_, ?_⟩ <;> simp [reSubGo, hm, interleaveSegs]
    | cons c rest =>
      have hrest : rest.length ≤ n := by
        simpa using Nat.le_of_succ_le_succ ht
      cases hm : matchAt (c :: rest) with
      | none =>
        have heq : reSubGo matchAt repl (c :: rest)
            = (c :: (reSubGo matchAt repl rest).1,
                (reSubGo matchAt repl rest).2) := by
          simp [reSubGo, hm]
        obtain ⟨segs, hlen, hs1, hs2⟩ := ih rest hrest
        obtain ⟨s0, ss, rfl⟩ : ∃ s0 ss, segs = s0 :: ss := by
          cases segs with
          | nil => simp at hlen
          | cons a b => exact ⟨a, b, rfl⟩
        refine ⟨(c :: s0) :: ss, ?_, ?_, ?_⟩
        · rw [heq]
          simpa using hlen
        · rw [heq, interleave_cons_head, hs1]
        · rw [heq, interleave_cons_head, hs2]
      | some k =>
        cases k with
        | zero =>
          have heq : reSubGo matchAt repl (c :: rest)
              = (repl ++ c :: (reSubGo matchAt repl rest).1,
                  [] :: (reSubGo matchAt repl rest).2) := by
            simp [reSubGo, hm]
          obtain ⟨segs, hlen, hs1, hs2⟩ := ih rest hrest
          obtain ⟨s0, ss, rfl⟩ : ∃ s0 ss, segs = s0 :: ss := by
            cases segs with
            | nil => simp at hlen
            | cons a b => exact ⟨a, b, rfl⟩
          refine ⟨[] :: (c :: s0) :: ss, ?_, ?_, ?_⟩
          · rw [heq]
            simpa using hlen
          · rw [heq]
            simp only [interleaveSegs, List.nil_append]
            rw [interleave_cons_head, hs1]
          · rw [heq]
            simp only [List.map_cons, interleaveSegs, List.nil_append]
            rw [interleave_cons_head, hs2]
        | succ m =>
          have hdrop : (rest.drop m).length ≤ n := by
            simp only [List.length_drop]
            omega
          have heq : reSubGo matchAt repl (c :: rest)
              = (repl ++ (reSubGo matchAt repl (rest.drop m)).1,
                  (c :: rest.take m)
                    :: (reSubGo matchAt repl (rest.drop m)).2) := by
            simp [reSubGo, hm]
          obtain ⟨segs, hlen, hs1, hs2⟩ := ih (rest.drop m) hdrop
          refine ⟨[] :: segs, ?_, ?_, ?_⟩
          · rw [heq]
            simpa using hlen
          · rw [heq]
            cases segs with
            | nil => simp at hlen
            | cons a b =>
              simp only [interleaveSegs, List.nil_append]
              rw [hs1]
              simp [List.take_append_drop]
          · rw [heq]
            cases segs with
            | nil => simp at hlen
            | cons a b =>
              simp only [List.map_cons, interleaveSegs, List.nil_append]
              rw [hs2]

theorem reSub_decomp (matchAt : Str → Option Nat) (repl : Str) (t : Str) :
    ∃ segs : List Str,
      segs.length = (reSubGo matchAt repl t).2.length + 1 ∧
      interleaveSegs segs (reSubGo matchAt repl t).2 = t ∧
      interleaveSegs segs ((reSubGo matchAt repl t).2.map fun _ => repl)
        = (reSubGo matchAt repl t).1 :=
  reSub_decomp_bound matchAt repl t.length t le_rfl

/-- C7: every regex rule is applied in list order as a global substitution
over the current text (the log entries of a rule are appended after those
of the earlier rules); a rule with any `replacement_type` behaves exactly
like `"mask"`; a rule's effect is the global substitution with every
individual match logged as `(matchedText, replacement_value)`; and the new
text is obtained from the old precisely by replacing each found match by
the replacement value (witnessed by the in-between segments). -/
theorem claim_C7_regex_pass :
    (∀ (r : RegexRule) (rs : List RegexRule) (t : Str),
      apply_regex_replacements t (r :: rs)
        = ((apply_regex_replacements (apply_regex_rule (t, []) r).1 rs).1,
            (apply_regex_rule (t, []) r).2
              ++ (apply_regex_replacements
                    (apply_regex_rule (t, []) r).1 rs).2)) ∧
    (∀ (pat : Str → Option Nat) (ty : Option String) (rv : Option Str)
        (st : Str × List (Str × Str)),
      apply_regex_rule st ⟨pat, ty, rv⟩
        = apply_regex_rule st ⟨pat, some "mask", rv⟩) ∧
    (∀ (pat : Str → Option Nat) (ty : Option String) (rv : Str)
        (st : Str × List (Str × Str)),
      apply_regex_rule st ⟨pat, ty, some rv⟩
        = ((reSubGo pat rv st.1).1,
            st.2 ++ (reSubGo pat rv st.1).2.map (fun m => (m, rv)))) ∧
    (∀ (pat : Str → Option Nat) (rv t : Str),
      ∃ segs : List Str,
        segs.length = (reSubGo pat rv t).2.length + 1 ∧
        interleaveSegs segs (reSubGo pat rv t).2 = t ∧
        interleaveSegs segs ((reSubGo pat rv t).2.map fun _ => rv)
          = (reSubGo pat rv t).1) := by
  refine ⟨?_, ?_, ?_, ?_⟩
  · intro r rs t
    exact apply_regex_foldl_append rs (apply_regex_rule (t, []) r).1
      (apply_regex_rule (t, []) r).2
  · intro pat ty rv st
    simp [apply_regex_rule]
  · intro pat ty rv st
    simp [apply_regex_rule]
  · intro pat rv t
    exact reSub_decomp pat rv t

/-- C6: the substitution engine is staged and cascading — the exact-map
pass runs on the output text of the knowledge-base pass, the regex pass on
the output of the exact-map pass, and the log is the concatenation of the
stage logs in stage order; concretely, a knowledge-base replacement value
(`"A"` → `"B"`) is re-matched by a later exact rule (`"B"` → `"C"`) whose
replacement is in turn re-matched by a regex rule (`"C"` → `"D"`). -/
theorem claim_C6_staged_cascading :
    (∀ (score : Str → Str → ℚ) (rules : RuleSet) (text : Str),
      anonymize_text score rules text
        = ((apply_regex_replacements
              (apply_exact_replacements
                (kb_pass score rules.customers text).1
                rules.exact_replacements).1
              rules.regex_replacements).1,
            (kb_pass score rules.customers text).2
              ++ (apply_exact_replacements
                    (kb_pass score rules.customers text).1
                    rules.exact_replacements).2
              ++ (apply_regex_replacements
                    (apply_exact_replacements
                      (kb_pass score rules.customers text).1
                      rules.exact_replacements).1
                    rules.regex_replacements).2)) ∧
    anonymize_text (fun _ _ => 0)
        ⟨[⟨['A'], [], some ['B']⟩], [(['B'], ['C'])],
          [⟨litPattern ['C'], none, some ['D']⟩]⟩ ['A']
      = (['D'], [(['A'], ['B']), (['B'], ['C']), (['C'], ['D'])]) := by
  refine ⟨fun score rules text => rfl, ?_⟩
  simp [anonymize_text, kb_pass, kb_customer_step, kb_candidates,
    kb_candidate_step, kb_replacement, containsSub, pyReplace, replaceCore,
    apply_exact_replacements, exact_step, apply_regex_replacements,
    apply_regex_rule, reSubGo, litPattern, List.isPrefixOf]

/-! ## Helper lemmas: line grouping -/

theorem splitLine_append (a : ℚ) :
    ∀ ws : List Word, (splitLine a ws).1 ++ (splitLine a ws).2 = ws := by
  intro ws
  induction ws with
  | nil => simp [splitLine]
  | cons w ws ih =>
    simp only [splitLine]
    split
    · simp
    · simpa using ih

theorem splitLine_fst_mem (a : ℚ) :
    ∀ (ws : List Word) (w : Word),
      w ∈ (splitLine a ws).1 → |round1 w.top - a| ≤ 2 := by
  intro ws
  induction ws with
  | nil => intro w h; simp [splitLine] at h
  | cons x ws ih =>
    intro w h
    simp only [splitLine] at h
    split at h
    · simp at h
    · rename_i hcond
      rcases List.mem_cons.mp h with rfl | h
      · exact le_of_not_lt hcond
      · exact ih w h

theorem splitLine_snd_head (a : ℚ) :
    ∀ (ws : List Word) (w : Word) (l : List Word),
      (splitLine a ws).2 = w :: l → 2 < |round1 w.top - a| := by
  intro ws
  induction ws with
  | nil => intro w l h; simp [splitLine] at h
  | cons x ws ih =>
    intro w l h
    simp only [splitLine] at h
    split at h
    · rename_i hcond
      obtain ⟨rfl, rfl⟩ := List.cons.inj h
      exact hcond
    · exact ih w l h

theorem group_sorted_bound :
    ∀ (n : Nat) (l : List Word), l.length ≤ n →
      (group_sorted l).flatten = l ∧
      (∀ L ∈ group_sorted l, L ≠ []) ∧
      (∀ L ∈ group_sorted l, ∀ w ∈ L,
        |round1 w.top - round1 (L.headD wDefault).top| ≤ 2) ∧
      (List.Sorted keyLe l → ∀ L ∈ group_sorted l, List.Sorted keyLe L) ∧
      List.Chain' (fun L M =>
        2 < |round1 (M.headD wDefault).top - round1 (L.headD wDefault).top|)
        (group_sorted l) := by
  intro n
  induction n with
  | zero =>
    intro l hl
    have : l = [] := List.eq_nil_of_length_eq_zero (Nat.le_zero.mp hl)
    subst this
    simp [group_sorted]
  | succ n ih =>
    intro l hl
    cases l with
    | nil => simp [group_sorted]
    | cons w ws =>
      have hsplit := splitLine_append (round1 w.top) ws
      have hlen2 : (splitLine (round1 w.top) ws).2.length ≤ n := by
        have := splitLine_snd_length (round1 w.top) ws
        simp only [List.length_cons] at hl
        omega
      obtain ⟨ihflat, ihne, ihanchor, ihsorted, ihchain⟩ :=
        ih (splitLine (round1 w.top) ws).2 hlen2
      have hgs : group_sorted (w :: ws)
          = (w :: (splitLine (round1 w.top) ws).1)
            :: group_sorted (splitLine (round1 w.top) ws).2 := by
        simp [group_sorted]
      rw [hgs]
      refine ⟨?_, ?_, ?_, ?_, ?_⟩
      · simp only [List.flatten_cons, ihflat, List.cons_append, hsplit]
      · intro L hL
        rcases List.mem_cons.mp hL with rfl | hL
        · simp
        · exact ihne L hL
      · intro L hL x hx
        rcases List.mem_cons.mp hL with rfl | hL
        · simp only [List.headD_cons]
          rcases List.mem_cons.mp hx with rfl | hx
          · simp
          · exact splitLine_fst_mem (round1 w.top) ws x hx
        · exact ihanchor L hL x hx
      · intro hsort L hL
        rcases List.mem_cons.mp hL with rfl | hL
        · have hpre : (w :: (splitLine (round1 w.top) ws).1).Sublist (w :: ws) := by
            refine List.IsPrefix.sublist ⟨(splitLine (round1 w.top) ws).2, ?_⟩
            simp [hsplit]
          exact List.Pairwise.sublist hpre hsort
        · have hsuf : (splitLine (round1 w.top) ws).2.Sublist (w :: ws) := by
            refine List.Sublist.trans (List.IsSuffix.sublist
              ⟨(splitLine (round1 w.top) ws).1, hsplit⟩) ?_
            exact List.sublist_cons_self w ws
          exact ihsorted (List.Pairwise.sublist hsuf hsort) L hL
      · rw [List.chain'_cons']
        refine ⟨?_, ihchain⟩
        intro M hM
        cases hsnd : (splitLine (round1 w.top) ws).2 with
        | nil =>
          rw [hsnd] at hM
          simp [group_sorted] at hM
        | cons w2 l2 =>
          rw [hsnd] at hM
          have : group_sorted (w2 :: l2)
              = (w2 :: (splitLine (round1 w2.top) l2).1)
                :: group_sorted (splitLine (round1 w2.top) l2).2 := by
            simp [group_sorted]
          rw [this] at hM
          simp only [List.head?_cons, Option.mem_def, Option.some.injEq] at hM
          subst hM
          simp only [List.headD_cons]
          exact splitLine_snd_head (round1 w.top) ws w2 l2 hsnd

/-- C8: the line grouper sorts the words by `(round(top, 1), x0)` (the
sorted list is a permutation of the input, ordered under the lexicographic
key) and walks them in a single pass whose lines flatten back to the
sorted sequence; every line is non-empty; every word placed in a line has
a rounded top within `2.0` of the line's anchor (the rounded top of the
word that started the line); words within a line appear in ascending
`(rounded top, x0)` order; and each new line starts exactly because its
first word's rounded top is more than `2.0` from the previous line's
anchor. -/
theorem claim_C8_line_grouper (ws : List Word) :
    (sort_words ws).Perm ws ∧
    List.Sorted keyLe (sort_words ws) ∧
    (group_lines ws).flatten = sort_words ws ∧
    (∀ L ∈ group_lines ws, L ≠ []) ∧
    (∀ L ∈ group_lines ws, ∀ w ∈ L,
      |round1 w.top - round1 (L.headD wDefault).top| ≤ 2) ∧
    (∀ L ∈ group_lines ws, List.Sorted keyLe L) ∧
    List.Chain' (fun L M =>
      2 < |round1 (M.headD wDefault).top - round1 (L.headD wDefault).top|)
      (group_lines ws) := by
  obtain ⟨hflat, hne, hanchor, hsorted, hchain⟩ :=
    group_sorted_bound (sort_words ws).length (sort_words ws) le_rfl
  exact ⟨List.perm_insertionSort keyLe ws,
    List.sorted_insertionSort keyLe ws, hflat, hne, hanchor,
    hsorted (List.sorted_insertionSort keyLe ws), hchain⟩

theorem claim_C8_witness :
    [(⟨0, 0, 0, 0, 0, 0, "Helvetica", 10, ['x']⟩ : Word)]
      ∈ group_lines [⟨0, 0, 0, 0, 0, 0, "Helvetica", 10, ['x']⟩] ∧
    (∀ w ∈ ([⟨0, 0, 0, 0, 0, 0, "Helvetica", 10, ['x']⟩] : List Word),
      |round1 w.top
          - round1 (([(⟨0, 0, 0, 0, 0, 0, "Helvetica", 10, ['x']⟩ : Word)]
              : List Word).headD wDefault).top| ≤ 2) := by
  have hgl : group_lines [(⟨0, 0, 0, 0, 0, 0, "Helvetica", 10, ['x']⟩ : Word)]
      = [[⟨0, 0, 0, 0, 0, 0, "Helvetica", 10, ['x']⟩]] := by
    simp [group_lines, sort_words, List.insertionSort, List.orderedInsert,
      group_sorted, splitLine]
  have hmem : [(⟨0, 0, 0, 0, 0, 0, "Helvetica", 10, ['x']⟩ : Word)]
      ∈ group_lines [⟨0, 0, 0, 0, 0, 0, "Helvetica", 10, ['x']⟩] := by
    rw [hgl]
    exact List.mem_singleton.mpr rfl
  exact ⟨hmem,
    (claim_C8_line_grouper
        [⟨0, 0, 0, 0, 0, 0, "Helvetica", 10, ['x']⟩]).2.2.2.2.1
      [⟨0, 0, 0, 0, 0, 0, "Helvetica", 10, ['x']⟩] hmem⟩
